import Mathlib

/-!
Verification of the poisson-ai streaming/automation core.

Strings of the TypeScript source are modelled as `List Char`; JavaScript string
operations (`includes`, `startsWith`, `substring`, `replace` with a literal
pattern) are embedded as executable functions on `List Char` below.
-/

set_option maxHeartbeats 1000000

/-- JavaScript `String.prototype.includes`: `jsIncludes s sub` is true iff
`sub` occurs as a contiguous substring of `s`. -/
def jsIncludes : List Char → List Char → Bool
  | [], sub => sub.isEmpty
  | c :: rest, sub => sub.isPrefixOf (c :: rest) || jsIncludes rest sub

theorem jsIncludes_iff (s sub : List Char) : jsIncludes s sub = true ↔ sub <:+: s := by
  induction s with
  | nil =>
    simp [jsIncludes, List.isEmpty_iff]
  | cons c rest ih =>
    simp only [jsIncludes, Bool.or_eq_true, ih, List.infix_cons_iff,
      List.isPrefixOf_iff_prefix]

/-- The automation settings fields consulted by terminal auto-accept
(`AutomationSettings` in backendClient.ts, restricted to the terminal kind). -/
structure AutomationSettings where
  auto_accept_terminal : Bool
  auto_accept_terminal_allow_anything : Bool
  auto_accept_terminal_allow_list : List (List Char)
  auto_accept_terminal_deny_list : List (List Char)

/-- `SettingsManager.matchesPattern`: substring containment in either direction. -/
def matchesPattern (item pattern : List Char) : Bool :=
  jsIncludes item pattern || jsIncludes pattern item

/-- `SettingsManager.isInAllowList`. -/
def isInAllowList (item : List Char) (allowList : List (List Char)) : Bool :=
  allowList.any (fun pattern => matchesPattern item pattern)

/-- `SettingsManager.isInDenyList`. -/
def isInDenyList (item : List Char) (denyList : List (List Char)) : Bool :=
  denyList.any (fun pattern => matchesPattern item pattern)

/-- `SettingsManager.canAutoAcceptTerminalCommand`. -/
def canAutoAcceptTerminalCommand (settings : AutomationSettings) (command : List Char) : Bool :=
  if !settings.auto_accept_terminal then
    false
  else if settings.auto_accept_terminal_allow_anything then
    !(isInDenyList command settings.auto_accept_terminal_deny_list)
  else
    isInAllowList command settings.auto_accept_terminal_allow_list

/-- The settings configuration used by the spec's worked example:
terminal auto-accept on, allow-anything off, allow list `["ls", "pwd"]`. -/
def lsPwdSettings : AutomationSettings where
  auto_accept_terminal := true
  auto_accept_terminal_allow_anything := false
  auto_accept_terminal_allow_list := ["ls".data, "pwd".data]
  auto_accept_terminal_deny_list := []

/-- Claim C5: with the terminal master flag on and allow-anything off, the
decision is true iff some allow-list entry is a substring of the command or
the command is a substring of that entry; with allow list `["ls", "pwd"]`,
`"ls -la"` is accepted and `"rm -rf /"` is rejected. -/
theorem canAutoAcceptTerminalCommand_allow_list_spec :
    (∀ (settings : AutomationSettings) (command : List Char),
      settings.auto_accept_terminal = true →
      settings.auto_accept_terminal_allow_anything = false →
      (canAutoAcceptTerminalCommand settings command = true ↔
        ∃ p ∈ settings.auto_accept_terminal_allow_list, p <:+: command ∨ command <:+: p)) ∧
    canAutoAcceptTerminalCommand lsPwdSettings "ls -la".data = true ∧
    canAutoAcceptTerminalCommand lsPwdSettings "rm -rf /".data = false := by
  refine ⟨fun settings command h1 h2 => ?_, by decide, by decide⟩
  simp [canAutoAcceptTerminalCommand, h1, h2, isInAllowList, matchesPattern,
    List.any_eq_true, jsIncludes_iff]

theorem canAutoAcceptTerminalCommand_allow_list_spec_witness :
    canAutoAcceptTerminalCommand lsPwdSettings "ls -la".data = true ↔
      ∃ p ∈ lsPwdSettings.auto_accept_terminal_allow_list,
        p <:+: "ls -la".data ∨ "ls -la".data <:+: p :=
  canAutoAcceptTerminalCommand_allow_list_spec.1 lsPwdSettings "ls -la".data rfl rfl

/-- Settings with the empty string in the terminal allow list. -/
def emptyAllowEntrySettings : AutomationSettings where
  auto_accept_terminal := true
  auto_accept_terminal_allow_anything := false
  auto_accept_terminal_allow_list := [[]]
  auto_accept_terminal_deny_list := []

/-- Settings with allow-anything on and the empty string in the deny list. -/
def emptyDenyEntrySettings : AutomationSettings where
  auto_accept_terminal := true
  auto_accept_terminal_allow_anything := true
  auto_accept_terminal_allow_list := []
  auto_accept_terminal_deny_list := [[]]

theorem jsIncludes_nil (s : List Char) : jsIncludes s [] = true := by
  rw [jsIncludes_iff]
  exact ⟨[], s, by simp⟩

/-- Claim C6: an empty-string allow-list entry makes the terminal decision true
for every command (with the master flag on and allow-anything off); an
empty-string deny-list entry makes the decision false for every command when
allow-anything is on. -/
theorem empty_pattern_dominates_terminal_decision :
    (∀ (settings : AutomationSettings) (command : List Char),
      settings.auto_accept_terminal = true →
      settings.auto_accept_terminal_allow_anything = false →
      ([] : List Char) ∈ settings.auto_accept_terminal_allow_list →
      canAutoAcceptTerminalCommand settings command = true) ∧
    (∀ (settings : AutomationSettings) (command : List Char),
      settings.auto_accept_terminal_allow_anything = true →
      ([] : List Char) ∈ settings.auto_accept_terminal_deny_list →
      canAutoAcceptTerminalCommand settings command = false) := by
  constructor
  · intro settings command h1 h2 hmem
    simp only [canAutoAcceptTerminalCommand, h1, h2, Bool.not_true, if_false,
      Bool.false_eq_true, isInAllowList, List.any_eq_true]
    exact ⟨[], hmem, by simp [matchesPattern, jsIncludes_nil]⟩
  · intro settings command h2 hmem
    by_cases h1 : settings.auto_accept_terminal = true
    · have hdeny : isInDenyList command settings.auto_accept_terminal_deny_list = true := by
        simp only [isInDenyList, List.any_eq_true]
        exact ⟨[], hmem, by simp [matchesPattern, jsIncludes_nil]⟩
      simp [canAutoAcceptTerminalCommand, h1, h2, hdeny]
    · have h1' : settings.auto_accept_terminal = false := by
        simpa using h1
      simp [canAutoAcceptTerminalCommand, h1']

theorem empty_pattern_dominates_terminal_decision_witness :
    canAutoAcceptTerminalCommand emptyAllowEntrySettings "rm -rf /".data = true ∧
    canAutoAcceptTerminalCommand emptyDenyEntrySettings "ls".data = false :=
  ⟨empty_pattern_dominates_terminal_decision.1 emptyAllowEntrySettings "rm -rf /".data
      rfl rfl (by simp [emptyAllowEntrySettings]),
   empty_pattern_dominates_terminal_decision.2 emptyDenyEntrySettings "ls".data
      rfl (by simp [emptyDenyEntrySettings])⟩

/-- `NON_RETRYABLE_ERROR_TYPES` (backendTypes / backendClient). -/
def NON_RETRYABLE_ERROR_TYPES : List (List Char) :=
  ["SUBSCRIPTION_LIMIT_REACHED".data,
   "TRIAL_EXPIRED".data,
   "PAYMENT_ACTION_REQUIRED".data,
   "USAGE_BILLING_REQUIRED".data,
   "USAGE_BILLING_LIMIT_REACHED".data,
   "SUBSCRIPTION_EXPIRED".data,
   "SUBSCRIPTION_PAYMENT_FAILED".data,
   "OVERAGE_PAYMENT_FAILED".data,
   "AUTHENTICATION_ERROR".data]

/-- `BackendClient.isRetryableError`: the input models the optional chain
`error?.error?.error_type` (`none` covers every missing level); a present empty
string is falsy in JavaScript, so it also falls through to the default. -/
def isRetryableError (errorType : Option (List Char)) : Bool :=
  match errorType with
  | some t => if t.isEmpty then true else !(NON_RETRYABLE_ERROR_TYPES.contains t)
  | none => true

/-- Claim C7: `isRetryableError` returns false iff the error carries an
`error_type` belonging to the fixed nine-element terminal set; in particular
`AUTHENTICATION_ERROR` is non-retryable while `TIMEOUT` or an absent kind is
retryable. -/
theorem isRetryableError_terminal_set_spec :
    (∀ e : Option (List Char),
      isRetryableError e = false ↔ ∃ t, e = some t ∧ t ∈ NON_RETRYABLE_ERROR_TYPES) ∧
    isRetryableError (some "AUTHENTICATION_ERROR".data) = false ∧
    isRetryableError (some "TIMEOUT".data) = true ∧
    isRetryableError none = true := by
  refine ⟨fun e => ?_, by decide, by decide, rfl⟩
  cases e with
  | none => simp [isRetryableError]
  | some t =>
    by_cases ht : t.isEmpty
    · have hnil : t = [] := List.isEmpty_iff.mp ht
      subst hnil
      simp only [isRetryableError, List.isEmpty_nil, if_true]
      constructor
      · intro h
        exact absurd h (by decide)
      · rintro ⟨t', ht', hmem⟩
        obtain rfl : t' = [] := by simpa using ht'.symm
        exact absurd hmem (by decide)
    · have hcon : (NON_RETRYABLE_ERROR_TYPES.contains t = true) ↔
          t ∈ NON_RETRYABLE_ERROR_TYPES := List.elem_iff
      constructor
      · intro h
        refine ⟨t, rfl, hcon.mp ?_⟩
        have hb : !(NON_RETRYABLE_ERROR_TYPES.contains t) = false := by
          simpa [isRetryableError, ht] using h
        simpa using hb
      · rintro ⟨t', ht', hmem⟩
        obtain rfl : t = t' := by simpa using ht'
        have hne : t.isEmpty = false := by simpa using ht
        simp [isRetryableError, hne, hcon, hmem]

/-- `MessageManager` state: the private `messageIdCounter`. -/
structure MessageManager where
  messageIdCounter : Nat

/-- `MessageManager.getNextMessageId`: increment the counter and return it. -/
def getNextMessageId (m : MessageManager) : Nat × MessageManager :=
  (m.messageIdCounter + 1, { messageIdCounter := m.messageIdCounter + 1 })

/-- The state/result after `k + 1` successive `getNextMessageId` calls from `m`. -/
def callNext (m : MessageManager) : Nat → Nat × MessageManager
  | 0 => getNextMessageId m
  | k + 1 => getNextMessageId (callNext m k).2

/-- The id returned by the `(k+1)`-th successive `getNextMessageId` call from `m`. -/
def nthMessageId (m : MessageManager) (k : Nat) : Nat :=
  (callNext m k).1

theorem callNext_counter (m : MessageManager) (k : Nat) :
    (callNext m k).2.messageIdCounter = m.messageIdCounter + k + 1 := by
  induction k with
  | zero => rfl
  | succ k ih =>
    simp only [callNext, getNextMessageId, ih]
    omega

theorem nthMessageId_eq (m : MessageManager) (k : Nat) :
    nthMessageId m k = m.messageIdCounter + k + 1 := by
  cases k with
  | zero => rfl
  | succ k =>
    simp only [nthMessageId, callNext, getNextMessageId, callNext_counter]
    omega

/-- Claim C8: successive `getNextMessageId` results are strictly increasing, and
hence the id sets drawn by any two disjoint groups of calls (two callIds'
reservations, under any interleaving) are disjoint. -/
theorem getNextMessageId_strictly_increasing_disjoint :
    (∀ (m : MessageManager) (i j : Nat), i < j → nthMessageId m i < nthMessageId m j) ∧
    (∀ (m : MessageManager) (S T : Finset Nat), Disjoint S T →
      Disjoint (S.image (nthMessageId m)) (T.image (nthMessageId m))) := by
  have hmono : ∀ (m : MessageManager) (i j : Nat), i < j →
      nthMessageId m i < nthMessageId m j := by
    intro m i j hij
    rw [nthMessageId_eq, nthMessageId_eq]
    omega
  refine ⟨hmono, fun m S T hST => ?_⟩
  have hinj : Function.Injective (nthMessageId m) := by
    intro i j h
    rw [nthMessageId_eq, nthMessageId_eq] at h
    omega
  exact (Finset.disjoint_image hinj).mpr hST

theorem getNextMessageId_strictly_increasing_disjoint_witness :
    nthMessageId ⟨0⟩ 0 < nthMessageId ⟨0⟩ 1 ∧
    Disjoint (({0} : Finset Nat).image (nthMessageId ⟨0⟩))
      (({1} : Finset Nat).image (nthMessageId ⟨0⟩)) :=
  ⟨getNextMessageId_strictly_increasing_disjoint.1 ⟨0⟩ 0 1 (by decide),
   getNextMessageId_strictly_increasing_disjoint.2 ⟨0⟩ {0} {1} (by decide)⟩

/-- `UISequenceManager` state: the `sequenceCounters` map, modelled as a total
function with default 0 (`sequenceCounters.get(conversationId) || 0`). -/
def UIState : Type := Nat → Nat

/-- `UISequenceManager.getNextSequence`. -/
def getNextSequence (st : UIState) (conversationId : Nat) : Nat × UIState :=
  let current := st conversationId
  let next := current + 1
  (next, fun c => if c = conversationId then next else st c)

/-- A fresh `UISequenceManager` (empty map). -/
def emptyUIState : UIState := fun _ => 0

/-- Run a list of `getNextSequence` requests (one conversation id per request),
collecting the returned sequence numbers. -/
def runSeq : UIState → List Nat → List Nat
  | _, [] => []
  | st, cid :: rest =>
    (getNextSequence st cid).1 :: runSeq (getNextSequence st cid).2 rest

theorem runSeq_length (st : UIState) (reqs : List Nat) :
    (runSeq st reqs).length = reqs.length := by
  induction reqs generalizing st with
  | nil => rfl
  | cons cid rest ih => simp [runSeq, ih]

theorem runSeq_getD (reqs : List Nat) (st : UIState) (i : Nat) (h : i < reqs.length) :
    (runSeq st reqs).getD i 0 =
      st (reqs.getD i 0) + (reqs.take i).count (reqs.getD i 0) + 1 := by
  induction reqs generalizing st i with
  | nil => simp at h
  | cons cid rest ih =>
    cases i with
    | zero =>
      simp [runSeq, getNextSequence]
    | succ i =>
      have hi : i < rest.length := by simpa using h
      have hrec := ih ((getNextSequence st cid).2) i hi
      have hstep : (runSeq st (cid :: rest)).getD (i + 1) 0 =
          (runSeq ((getNextSequence st cid).2) rest).getD i 0 := by
        simp [runSeq]
      have hget : (cid :: rest).getD (i + 1) 0 = rest.getD i 0 := by
        simp
      rw [hstep, hrec, hget]
      generalize rest.getD i 0 = x
      have hupd : (getNextSequence st cid).2 x =
          if x = cid then st cid + 1 else st x := by
        simp [getNextSequence]
      rw [hupd]
      have hcount : ((cid :: rest).take (i + 1)).count x =
          (rest.take i).count x + (if x = cid then 1 else 0) := by
        simp only [List.take_succ_cons, List.count_cons]
        by_cases hc : x = cid
        · simp [hc]
        · have hc' : ¬cid = x := fun hh => hc hh.symm
          simp [hc, hc']
      rw [hcount]
      by_cases hc : x = cid <;> simp [hc] <;> omega

/-- Claim C9: from a fresh manager, three `getNextSequence` calls for
conversation 7 return 1, 2, 3; and in any interleaved request list, the result
of each call is exactly one more than the number of earlier calls for the same
conversation id (per-conversation counters advance independently). -/
theorem getNextSequence_per_conversation :
    runSeq emptyUIState [7, 7, 7] = [1, 2, 3] ∧
    ∀ (reqs : List Nat) (i : Nat), i < reqs.length →
      (runSeq emptyUIState reqs).getD i 0 =
        (reqs.take i).count (reqs.getD i 0) + 1 := by
  refine ⟨by decide, fun reqs i h => ?_⟩
  have := runSeq_getD reqs emptyUIState i h
  simpa [emptyUIState] using this

theorem getNextSequence_per_conversation_witness :
    (runSeq emptyUIState [7, 9, 7]).getD 2 0 = 2 := by
  have h := getNextSequence_per_conversation.2 [7, 9, 7] 2 (by decide)
  simpa using h

/-- `ButtonState` (implementation plan 18.10). -/
structure ButtonState where
  message_id : Nat
  buttons_run : List (List Char)
  next_button : Option (List Char)
  on_deck_button : Option (List Char)
deriving DecidableEq

/-- The `buttonStates` map of `ButtonStateManager`, modelled as a total
function to `Option ButtonState` (`Map.get` returning `undefined` is `none`). -/
def ButtonStore : Type := Nat → Option ButtonState

/-- `markButtonAsRun` step (1): `this.buttonStates.get(messageId) || { ... }` —
fetch the message's state or create the default. -/
def fetchOrCreate (store : ButtonStore) (messageId : Nat) : ButtonState :=
  (store messageId).getD
    { message_id := messageId, buttons_run := [], next_button := none, on_deck_button := none }

/-- `markButtonAsRun` step (2): push `buttonType` onto `buttons_run` if absent. -/
def addButtonRun (state : ButtonState) (buttonType : List Char) : ButtonState :=
  if state.buttons_run.contains buttonType then state
  else { state with buttons_run := state.buttons_run ++ [buttonType] }

/-- `ButtonStateManager.markButtonAsRun`: fetch-or-create the message's state,
push the button type if absent, and store the state back. -/
def markButtonAsRun (store : ButtonStore) (messageId : Nat)
    (buttonType : List Char) : ButtonStore :=
  fun k =>
    if k = messageId then some (addButtonRun (fetchOrCreate store messageId) buttonType)
    else store k

/-- Modelled from the spec: `shouldHide(messageId, actionKind)` (declared as
`shouldHideButton` in the plan but with no body in src/) is true iff
`actionKind` is in the run-set recorded for `messageId`. -/
def shouldHide (store : ButtonStore) (messageId : Nat) (actionKind : List Char) : Bool :=
  match store messageId with
  | some st => st.buttons_run.contains actionKind
  | none => false

theorem contains_append_singleton (l : List (List Char)) (a : List Char) :
    (l ++ [a]).contains a = true := by
  rw [List.elem_iff]
  simp

theorem addButtonRun_contains (st : ButtonState) (a : List Char) :
    (addButtonRun st a).buttons_run.contains a = true := by
  by_cases hc : st.buttons_run.contains a = true
  · rw [addButtonRun, if_pos hc]
    exact hc
  · rw [addButtonRun, if_neg hc]
    exact contains_append_singleton _ a

theorem addButtonRun_idem (st : ButtonState) (a : List Char) :
    addButtonRun (addButtonRun st a) a = addButtonRun st a := by
  conv_lhs => rw [addButtonRun]
  rw [if_pos (addButtonRun_contains st a)]

/-- Claim C10: after `markButtonAsRun m a` the action is recorded (so
`shouldHide m a` is true), and a second `markButtonAsRun m a` leaves the store
exactly as after the first call (idempotence; re-marking is a no-op). -/
theorem markButtonAsRun_shouldHide_idempotent :
    ∀ (store : ButtonStore) (m : Nat) (a : List Char),
      shouldHide (markButtonAsRun store m a) m a = true ∧
      markButtonAsRun (markButtonAsRun store m a) m a = markButtonAsRun store m a := by
  intro store m a
  have hat : markButtonAsRun store m a m = some (addButtonRun (fetchOrCreate store m) a) := by
    simp [markButtonAsRun]
  constructor
  · simp only [shouldHide, hat]
    exact addButtonRun_contains _ a
  · funext k
    by_cases hk : k = m
    · subst hk
      have hfetch : fetchOrCreate (markButtonAsRun store k a) k =
          addButtonRun (fetchOrCreate store k) a := by
        simp [fetchOrCreate, hat]
      have hl : markButtonAsRun (markButtonAsRun store k a) k a k =
          some (addButtonRun (fetchOrCreate (markButtonAsRun store k a) k) a) := by
        simp [markButtonAsRun]
      rw [hl, hfetch, addButtonRun_idem, hat]
    · simp [markButtonAsRun, hk]

/-- JavaScript regex `\s`: the whitespace class used by the end-marker pattern. -/
def isJsWhitespace (c : Char) : Bool :=
  c = ' ' || c = '\t' || c = '\n' || c = '\r' || c.val = 11 || c.val = 12 ||
  c.val = 160 || c.val = 0x1680 || (0x2000 ≤ c.val && c.val ≤ 0x200a) ||
  c.val = 0x2028 || c.val = 0x2029 || c.val = 0x202f || c.val = 0x205f ||
  c.val = 0x3000 || c.val = 0xfeff

/-- The literal part `"instructions"` closing the end-marker regex. -/
def instructionsLiteral : List Char := "\"instructions\"".data

/-- Whether the end-marker regex `\s*"\s*,\s*"instructions"` matches starting at
the head of `s`. Each `\s*` is followed by a non-whitespace literal, so the
greedy `dropWhile` is exact. -/
def matchEndMarkerAt (s : List Char) : Bool :=
  match s.dropWhile isJsWhitespace with
  | [] => false
  | c :: r1 =>
    if c = '"' then
      match r1.dropWhile isJsWhitespace with
      | [] => false
      | c2 :: r2 =>
        if c2 = ',' then instructionsLiteral.isPrefixOf (r2.dropWhile isJsWhitespace)
        else false
    else false

/-- `accumulated.match(endMarkerPattern)`: index of the first (leftmost) match
of the end-marker regex, or `none`. -/
def findEndMarker : List Char → Option Nat
  | [] => none
  | c :: rest =>
    if matchEndMarkerAt (c :: rest) then some 0
    else (findEndMarker rest).map (fun i => i + 1)

/-- `BUFFER_SIZE` (implementation plan 18.1): the 20-character safety margin. -/
def BUFFER_SIZE : Nat := 20

/-- `extractStreamContent` (implementation plan 18.1). `currentStreamed` is a
parameter of the source function but is not consulted by its body. -/
def extractStreamContent (accumulated currentStreamed : List Char) : List Char × Bool :=
  match findEndMarker accumulated with
  | some i => (accumulated.take i, true)
  | none =>
    if accumulated.length > BUFFER_SIZE then
      (accumulated.take (accumulated.length - BUFFER_SIZE), false)
    else
      ([], false)

/-- Claim C4: when the accumulated string contains no end marker, a length of at
most 20 yields empty content with `endReached = false`, and a length above 20
yields the accumulated string minus its last 20 characters, with
`endReached = false`. -/
theorem extractStreamContent_no_marker_spec :
    ∀ (accumulated currentStreamed : List Char),
      findEndMarker accumulated = none →
      (accumulated.length ≤ 20 →
        extractStreamContent accumulated currentStreamed = ([], false)) ∧
      (accumulated.length > 20 →
        extractStreamContent accumulated currentStreamed =
          (accumulated.take (accumulated.length - 20), false)) := by
  intro accumulated currentStreamed hnone
  constructor
  · intro hle
    have hgt : ¬(accumulated.length > BUFFER_SIZE) := by
      simp only [BUFFER_SIZE]
      omega
    simp [extractStreamContent, hnone, hgt]
  · intro hgt
    have hgt' : accumulated.length > BUFFER_SIZE := by
      simp only [BUFFER_SIZE]
      omega
    simp [extractStreamContent, hnone, hgt', BUFFER_SIZE]
    exact fun hle => absurd hle (by omega)

theorem extractStreamContent_no_marker_spec_witness :
    extractStreamContent (List.replicate 25 'x') [] =
      (List.replicate 5 'x', false) := by
  have h := (extractStreamContent_no_marker_spec (List.replicate 25 'x') []
    (by decide)).2 (by decide)
  simpa using h

theorem matchEndMarkerAt_iff (s : List Char) :
    matchEndMarkerAt s = true ↔
      ∃ r1 r2, s.dropWhile isJsWhitespace = '"' :: r1 ∧
        r1.dropWhile isJsWhitespace = ',' :: r2 ∧
        instructionsLiteral.isPrefixOf (r2.dropWhile isJsWhitespace) = true := by
  constructor
  · intro h
    unfold matchEndMarkerAt at h
    split at h
    · exact absurd h (by simp)
    · rename_i c r1 heq1
      split at h
      · rename_i hc
        subst hc
        split at h
        · exact absurd h (by simp)
        · rename_i c2 r2 heq2
          split at h
          · rename_i hc2
            subst hc2
            exact ⟨r1, r2, heq1, heq2, h⟩
          · exact absurd h (by simp)
      · exact absurd h (by simp)
  · rintro ⟨r1, r2, h1, h2, h3⟩
    unfold matchEndMarkerAt
    rw [h1]
    simp only [if_pos rfl]
    rw [h2]
    simp only [if_pos rfl]
    exact h3

theorem dropWhile_append_of_ne_nil (p : Char → Bool) (l ext : List Char)
    (h : l.dropWhile p ≠ []) :
    (l ++ ext).dropWhile p = l.dropWhile p ++ ext := by
  rw [List.dropWhile_append]
  have hne : (l.dropWhile p).isEmpty = false := by
    simpa [List.isEmpty_iff] using h
  rw [hne]
  simp

theorem matchEndMarkerAt_append (s ext : List Char) (h : matchEndMarkerAt s = true) :
    matchEndMarkerAt (s ++ ext) = true := by
  obtain ⟨r1, r2, h1, h2, h3⟩ := (matchEndMarkerAt_iff s).mp h
  have hd1 : (s ++ ext).dropWhile isJsWhitespace = '"' :: (r1 ++ ext) := by
    rw [dropWhile_append_of_ne_nil _ _ _ (by rw [h1]; simp), h1]
    rfl
  have hd2 : (r1 ++ ext).dropWhile isJsWhitespace = ',' :: (r2 ++ ext) := by
    rw [dropWhile_append_of_ne_nil _ _ _ (by rw [h2]; simp), h2]
    rfl
  have hne2 : r2.dropWhile isJsWhitespace ≠ [] := by
    intro hnil
    rw [hnil] at h3
    exact absurd h3 (by decide)
  have hd3 : instructionsLiteral.isPrefixOf ((r2 ++ ext).dropWhile isJsWhitespace) = true := by
    rw [dropWhile_append_of_ne_nil _ _ _ hne2]
    rw [ List.isPrefixOf_iff_prefix] at h3 ⊢
    exact h3.trans (List.prefix_append _ _)
  exact (matchEndMarkerAt_iff _).mpr ⟨r1 ++ ext, r2 ++ ext, hd1, hd2, hd3⟩

theorem findEndMarker_matchAt (s : List Char) (i : Nat) (h : findEndMarker s = some i) :
    matchEndMarkerAt (s.drop i) = true := by
  induction s generalizing i with
  | nil => simp [findEndMarker] at h
  | cons c rest ih =>
    rw [findEndMarker] at h
    by_cases hm : matchEndMarkerAt (c :: rest) = true
    · rw [if_pos hm] at h
      obtain rfl : (0 : Nat) = i := by simpa using h
      exact hm
    · rw [if_neg hm] at h
      cases hfr : findEndMarker rest with
      | none =>
        rw [hfr] at h
        simp at h
      | some j =>
        rw [hfr] at h
        obtain rfl : j + 1 = i := by simpa using h
        exact ih j hfr

theorem findEndMarker_isSome_of_matchAt (s : List Char) (i : Nat)
    (h : matchEndMarkerAt (s.drop i) = true) : findEndMarker s ≠ none := by
  induction s generalizing i with
  | nil =>
    rw [List.drop_nil] at h
    exact absurd h (by decide)
  | cons c rest ih =>
    cases i with
    | zero =>
      rw [List.drop_zero] at h
      simp [findEndMarker, h]
    | succ i =>
      have h' : matchEndMarkerAt (rest.drop i) = true := h
      rw [findEndMarker]
      by_cases hm : matchEndMarkerAt (c :: rest) = true
      · simp [hm]
      · rw [if_neg hm]
        have hne := ih i h'
        cases hfr : findEndMarker rest with
        | none => exact absurd hfr hne
        | some j => simp

theorem findEndMarker_none_mono (a b : List Char) (hab : a <+: b)
    (hb : findEndMarker b = none) : findEndMarker a = none := by
  cases hfa : findEndMarker a with
  | none => rfl
  | some i =>
    exfalso
    have hm := findEndMarker_matchAt a i hfa
    obtain ⟨t, rfl⟩ := hab
    have hi : i ≤ a.length := by
      by_contra hgt
      have hnil : a.drop i = [] := List.drop_eq_nil_of_le (by omega)
      rw [hnil] at hm
      exact absurd hm (by decide)
    have hm2 : matchEndMarkerAt ((a ++ t).drop i) = true := by
      rw [List.drop_append_of_le_length hi]
      exact matchEndMarkerAt_append _ _ hm
    exact findEndMarker_isSome_of_matchAt (a ++ t) i hm2 hb

/-- Claim C3 (amended): while the end marker has not appeared, the content
returned for a grown accumulator extends the content returned for any earlier
accumulator — the function re-returns the cumulative safe prefix (so
characters are re-contained across calls; per-character at-most-once delivery
is left to the caller, the unused `currentStreamed` cursor argument). -/
theorem extractStreamContent_cumulative :
    ∀ (a b cur1 cur2 : List Char), a <+: b → findEndMarker b = none →
      (extractStreamContent a cur1).1 <+: (extractStreamContent b cur2).1 := by
  intro a b cur1 cur2 hab hb
  have ha : findEndMarker a = none := findEndMarker_none_mono a b hab hb
  have hlen : a.length ≤ b.length := hab.length_le
  simp only [extractStreamContent, ha, hb]
  by_cases h20 : a.length > BUFFER_SIZE
  · have h20b : b.length > BUFFER_SIZE := by omega
    rw [if_pos h20, if_pos h20b]
    have htake1 : a.take (a.length - BUFFER_SIZE) = b.take (a.length - BUFFER_SIZE) := by
      obtain ⟨t, rfl⟩ := hab
      rw [List.take_append_of_le_length (by omega)]
    have hmn : a.length - BUFFER_SIZE ≤ b.length - BUFFER_SIZE := by omega
    have htake2 : b.take (a.length - BUFFER_SIZE) =
        (b.take (b.length - BUFFER_SIZE)).take (a.length - BUFFER_SIZE) := by
      rw [List.take_take, min_eq_left hmn]
    simp only [htake1, htake2]
    exact List.take_prefix _ _
  · rw [if_neg h20]
    by_cases h20b : b.length > BUFFER_SIZE
    · rw [if_pos h20b]
      exact List.nil_prefix
    · rw [if_neg h20b]

theorem extractStreamContent_cumulative_witness :
    (extractStreamContent (List.replicate 21 'a') []).1 <+:
      (extractStreamContent (List.replicate 25 'a') []).1 :=
  extractStreamContent_cumulative (List.replicate 21 'a') (List.replicate 25 'a')
    [] [] (by decide) (by decide)

theorem extractStreamContent_reemission_counterexample :
    (extractStreamContent (List.replicate 21 'a') []).1 = ['a'] ∧
    (extractStreamContent (List.replicate 25 'a') []).1 = List.replicate 5 'a' ∧
    'a' ∈ (extractStreamContent (List.replicate 25 'a') []).1 := by
  refine ⟨?_, ?_, ?_⟩ <;> decide

/-- The literal data-frame prefix `'data: '` (6 characters). -/
def dataFrameMarker : List Char := "data: ".data

/-- The stream terminator token `'[DONE]'`. -/
def doneToken : List Char := "[DONE]".data

/-- Per-line data handling of `BackendClient.streamQuery` (backendClient.ts):
`line.substring(6)` after `line.startsWith('data: ')`; `JSON.parse` is the
abstract `parse` argument, with `none` for a thrown parse error (the catch
skips the chunk). -/
def streamQueryLine {α : Type} (parse : List Char → Option α) (line : List Char) : Option α :=
  if dataFrameMarker.isPrefixOf line then
    let jsonData := line.drop 6
    if 0 < jsonData.length ∧ jsonData ≠ doneToken then parse jsonData else none
  else none

/-- `SSEParser.parseSSELine` (implementation plan 18.2): identical shape but
`line.substring(7)`; the `{type, data}` wrapper is dropped, keeping the decoded
payload. -/
def parseSSELine {α : Type} (parse : List Char → Option α) (line : List Char) : Option α :=
  if dataFrameMarker.isPrefixOf line then
    let jsonData := line.drop 7
    if 0 < jsonData.length ∧ jsonData ≠ doneToken then parse jsonData else none
  else none

/-- The spec's frame-decoder contract (§4.1), parameterized by how many
characters are stripped from a data line: strip `stripCount` characters, emit
nothing when the remainder is empty or the terminator token, otherwise decode
the remainder. -/
def specFrameDecode {α : Type} (stripCount : Nat) (parse : List Char → Option α)
    (line : List Char) : Option α :=
  if dataFrameMarker.isPrefixOf line then
    let remainder := line.drop stripCount
    if 0 < remainder.length ∧ remainder ≠ doneToken then parse remainder else none
  else none

/-- Modelled from the spec: the platform `JSON.parse` (a builtin, not present
in src/), restricted to nonnegative decimal integer literals; every other
input is treated as a parse failure, which is sound for the inputs used here. -/
def jsonParseNat (s : List Char) : Option Nat :=
  if s ≠ [] ∧ s.all (fun c => c.isDigit) ∧ (s.length = 1 ∨ s.headD '0' ≠ '0') then
    some (s.foldl (fun n c => n * 10 + (c.toNat - '0'.toNat)) 0)
  else none

theorem frame_decoder_embeddings_disagree :
    streamQueryLine jsonParseNat "data: 5".data = some 5 ∧
    parseSSELine jsonParseNat "data: 5".data = none := by
  refine ⟨?_, ?_⟩ <;> decide

/-- Claim C1 (amended): `streamQuery` strips exactly the length of the
6-character literal prefix while `parseSSELine` strips one character more, so
the two embeddings implement the spec contract at different strip counts; they
agree on every line that is not a data line, but differ on data lines
(e.g. `'data: 5'`). -/
theorem frame_decoder_strip_counts :
    (∀ {α : Type} (parse : List Char → Option α) (line : List Char),
      dataFrameMarker.isPrefixOf line = false →
      streamQueryLine parse line = parseSSELine parse line) ∧
    (∀ {α : Type} (parse : List Char → Option α) (line : List Char),
      streamQueryLine parse line = specFrameDecode dataFrameMarker.length parse line ∧
      parseSSELine parse line = specFrameDecode (dataFrameMarker.length + 1) parse line) := by
  constructor
  · intro α parse line h
    simp [streamQueryLine, parseSSELine, h]
  · intro α parse line
    constructor
    · rfl
    · rfl

theorem frame_decoder_strip_counts_witness :
    streamQueryLine jsonParseNat "event: ping".data =
      parseSSELine jsonParseNat "event: ping".data :=
  frame_decoder_strip_counts.1 jsonParseNat "event: ping".data (by decide)

/-- Fuel-driven worker for literal-pattern global replacement: scan left to
right; at a match emit the replacement and skip the pattern length, otherwise
copy one character. Fuel bounds the recursion; `s.length` always suffices. -/
def replaceAllFuel (pat repl : List Char) : Nat → List Char → List Char
  | 0, s => s
  | _ + 1, [] => []
  | fuel + 1, c :: rest =>
    if pat ≠ [] ∧ pat.isPrefixOf (c :: rest) then
      repl ++ replaceAllFuel pat repl fuel ((c :: rest).drop pat.length)
    else
      c :: replaceAllFuel pat repl fuel rest

/-- JavaScript `String.prototype.replace(regex, repl)` with a `g`-flagged
regex whose pattern is a fixed literal string: leftmost, non-overlapping,
left-to-right global replacement. -/
def replaceAll (pat repl s : List Char) : List Char :=
  replaceAllFuel pat repl s.length s

theorem replaceAllFuel_eq (pat repl : List Char) :
    ∀ (n m : Nat) (s : List Char), s.length ≤ n → s.length ≤ m →
      replaceAllFuel pat repl n s = replaceAllFuel pat repl m s := by
  intro n
  induction n with
  | zero =>
    intro m s hn hm
    have hs : s = [] := List.eq_nil_of_length_eq_zero (by omega)
    subst hs
    cases m <;> rfl
  | succ n ih =>
    intro m s hn hm
    cases s with
    | nil => cases m <;> rfl
    | cons c rest =>
      cases m with
      | zero => simp at hm
      | succ m' =>
        simp only [replaceAllFuel]
        by_cases hc : pat ≠ [] ∧ pat.isPrefixOf (c :: rest) = true
        · rw [if_pos hc, if_pos hc]
          congr 1
          have hplen : 1 ≤ pat.length := by
            cases hpat : pat with
            | nil => exact absurd hpat hc.1
            | cons _ _ => simp
          have hlen : ((c :: rest).drop pat.length).length ≤ rest.length := by
            rw [List.length_drop, List.length_cons]
            calc rest.length + 1 - pat.length ≤ rest.length + 1 - 1 :=
                  Nat.sub_le_sub_left hplen _
              _ = rest.length := rfl
          have hn' : rest.length ≤ n := by
            simp only [List.length_cons] at hn
            omega
          have hm' : rest.length ≤ m' := by
            simp only [List.length_cons] at hm
            omega
          apply ih
          · exact le_trans hlen hn'
          · exact le_trans hlen hm'
        · rw [if_neg hc, if_neg hc]
          congr 1
          apply ih
          · simpa using Nat.le_of_succ_le_succ hn
          · simpa using Nat.le_of_succ_le_succ hm

theorem replaceAll_append (pat repl s : List Char) (hp : pat ≠ []) :
    replaceAll pat repl (pat ++ s) = repl ++ replaceAll pat repl s := by
  cases hpat : pat with
  | nil => exact absurd hpat hp
  | cons p ps =>
    subst hpat
    rw [replaceAll]
    rw [show (p :: ps) ++ s = p :: (ps ++ s) from rfl]
    rw [show (p :: (ps ++ s)).length = (ps ++ s).length + 1 from by simp]
    simp only [replaceAllFuel]
    rw [if_pos ⟨List.cons_ne_nil p ps,
      List.isPrefixOf_iff_prefix.mpr (by exact List.prefix_append (p :: ps) s)⟩]
    congr 1
    have hdrop : (p :: (ps ++ s)).drop (p :: ps).length = s := by
      show ((p :: ps) ++ s).drop (p :: ps).length = s
      exact List.drop_left _ _
    rw [hdrop, replaceAll]
    apply replaceAllFuel_eq
    · simp
    · exact Nat.le_refl _

theorem replaceAllFuel_no_occ (pat repl : List Char) (c0 : Char) (hc0 : c0 ∈ pat) :
    ∀ (n : Nat) (s : List Char), c0 ∉ s → replaceAllFuel pat repl n s = s := by
  intro n
  induction n with
  | zero => intro s _; rfl
  | succ n ih =>
    intro s hs
    cases s with
    | nil => rfl
    | cons c rest =>
      simp only [replaceAllFuel]
      have hnp : ¬(pat ≠ [] ∧ pat.isPrefixOf (c :: rest) = true) := by
        rintro ⟨-, hpre⟩
        have hsub : pat <+: c :: rest := List.isPrefixOf_iff_prefix.mp hpre
        exact hs (hsub.subset hc0)
      rw [if_neg hnp]
      have hrest : c0 ∉ rest := fun h => hs (List.mem_cons_of_mem _ h)
      rw [ih rest hrest]

theorem replaceAll_no_occ (pat repl s : List Char) (c0 : Char) (hc0 : c0 ∈ pat)
    (hs : c0 ∉ s) : replaceAll pat repl s = s :=
  replaceAllFuel_no_occ pat repl c0 hc0 s.length s hs

/-- `k` concatenated copies of `l`. -/
def repCat (l : List Char) : Nat → List Char
  | 0 => []
  | k + 1 => l ++ repCat l k

theorem mem_repCat (l : List Char) (k : Nat) (c : Char) (h : c ∈ repCat l k) : c ∈ l := by
  induction k with
  | zero => simp [repCat] at h
  | succ k ih =>
    simp only [repCat, List.mem_append] at h
    rcases h with h | h
    · exact h
    · exact ih h

/-- The `'<<<BS>>>'` sentinel. -/
def bsSentinel : List Char := "<<<BS>>>".data

/-- The `'<<<NL>>>'` sentinel. -/
def nlSentinel : List Char := "<<<NL>>>".data

/-- The `'<<<TAB>>>'` sentinel. -/
def tabSentinel : List Char := "<<<TAB>>>".data

/-- The `'<<<DQ>>>'` sentinel. -/
def dqSentinel : List Char := "<<<DQ>>>".data

/-- `unescapeStreamingJson` (implementation plan 18.5). Each source regex is a
JS regex literal built only from escapes, hence a fixed literal pattern:
`/\\\\\\\\/` is four backslash characters, `/\\\\\\n/` is three backslashes
then `n`, `/\\\\\\t/` three backslashes then `t`, `/\\\\"/` two backslashes
then `"`, `/\\n/` one backslash then `n`, `/\\t/` one backslash then `t`.
The replacement strings `'\n'`, `'\t'`, `'\\n'`, `'\\t'`, `'\\'` denote a
newline, a tab, backslash-`n`, backslash-`t`, and a single backslash. The ten
stages are applied innermost-first in the source's top-to-bottom order. -/
def unescapeStreamingJson (content : List Char) : List Char :=
  replaceAll bsSentinel ['\\'] <|
  replaceAll dqSentinel ['"'] <|
  replaceAll tabSentinel ['\\', 't'] <|
  replaceAll nlSentinel ['\\', 'n'] <|
  replaceAll ['\\', 't'] ['\t'] <|
  replaceAll ['\\', 'n'] ['\n'] <|
  replaceAll ['\\', '\\', '"'] dqSentinel <|
  replaceAll ['\\', '\\', '\\', 't'] tabSentinel <|
  replaceAll ['\\', '\\', '\\', 'n'] nlSentinel <|
  replaceAll ['\\', '\\', '\\', '\\'] bsSentinel content

theorem stage1_replicate (k : Nat) :
    replaceAll ['\\', '\\', '\\', '\\'] bsSentinel (List.replicate (4 * k) '\\') =
      repCat bsSentinel k := by
  induction k with
  | zero => rfl
  | succ k ih =>
    rw [show 4 * (k + 1) = 4 + 4 * k from by ring, List.replicate_add]
    rw [show List.replicate 4 '\\' = ['\\', '\\', '\\', '\\'] from rfl]
    rw [replaceAll_append _ _ _ (by simp), ih]
    rfl

theorem stage10_repCat (k : Nat) :
    replaceAll bsSentinel ['\\'] (repCat bsSentinel k) = List.replicate k '\\' := by
  induction k with
  | zero => rfl
  | succ k ih =>
    show replaceAll bsSentinel ['\\'] (bsSentinel ++ repCat bsSentinel k) = _
    rw [replaceAll_append _ _ _ (by decide), ih]
    rfl

theorem replaceAll_fixed_on_bs_repCat (pat repl : List Char) (c0 : Char)
    (hc0 : c0 ∈ pat) (hnot : c0 ∉ bsSentinel) (k : Nat) :
    replaceAll pat repl (repCat bsSentinel k) = repCat bsSentinel k := by
  apply replaceAll_no_occ pat repl _ c0 hc0
  intro hmem
  exact hnot (mem_repCat _ _ _ hmem)

/-- Claim C2 (amended): the normalizer maps each quadruple-backslash sequence
(the doubly-encoded form) to a single backslash via the stage-(1) sentinel: an
input of `4 * k` backslashes yields `k` backslashes. An input of exactly two
backslashes is returned unchanged (no stage matches it). -/
theorem unescapeStreamingJson_quadruple_backslash (k : Nat) :
    unescapeStreamingJson (List.replicate (4 * k) '\\') = List.replicate k '\\' := by
  unfold unescapeStreamingJson
  rw [stage1_replicate]
  rw [replaceAll_fixed_on_bs_repCat ['\\', '\\', '\\', 'n'] nlSentinel '\\'
    (by decide) (by decide)]
  rw [replaceAll_fixed_on_bs_repCat ['\\', '\\', '\\', 't'] tabSentinel '\\'
    (by decide) (by decide)]
  rw [replaceAll_fixed_on_bs_repCat ['\\', '\\', '"'] dqSentinel '\\'
    (by decide) (by decide)]
  rw [replaceAll_fixed_on_bs_repCat ['\\', 'n'] ['\n'] '\\' (by decide) (by decide)]
  rw [replaceAll_fixed_on_bs_repCat ['\\', 't'] ['\t'] '\\' (by decide) (by decide)]
  rw [replaceAll_fixed_on_bs_repCat nlSentinel ['\\', 'n'] 'N' (by decide) (by decide)]
  rw [replaceAll_fixed_on_bs_repCat tabSentinel ['\\', 't'] 'A' (by decide) (by decide)]
  rw [replaceAll_fixed_on_bs_repCat dqSentinel ['"'] 'D' (by decide) (by decide)]
  exact stage10_repCat k

theorem unescapeStreamingJson_two_backslashes_counterexample :
    unescapeStreamingJson ['\\', '\\'] = ['\\', '\\'] ∧
    unescapeStreamingJson ['\\', '\\'] ≠ ['\\'] := by
  refine ⟨?_, ?_⟩ <;> decide
